import Mathlib

/-!
Verification of the PostgreSQL-backed session store implemented by
`PostgreSQLSession` in `06_sessions.py`.

The store keeps one table

  conversation_turns(session_id TEXT, idx SERIAL, payload JSONB,
                     PRIMARY KEY (session_id, idx))

and the session log exposes five operations over it: `get_items`,
`add_items`, `pop_item`, `clear_session`, `close`.

Shallow embedding decisions, each tied to the source:
* a table is a `List Row` together with the SERIAL counter `nextIdx`
  (Postgres `SERIAL` draws from one sequence for the whole table, so a
  single counter assigns `idx` for every insert);
* `payload` is opaque: `json.dumps`/`json.loads` round-trip a caller
  document unchanged, so payloads are modelled as an opaque `String`;
* SQL `ORDER BY idx ASC` / `DESC` is modelled by sorting the filtered
  rows with `List.insertionSort` on the corresponding order;
* `DELETE … WHERE ctid = (…)` deletes exactly the physical row the
  subquery selected; since `(session_id, idx)` is the table's primary
  key, that is the same as deleting the rows matching the selected
  row's primary key, which is how the deletion is modelled;
* `executemany` runs the prepared `INSERT` once per argument tuple, in
  order, each insert taking the next value of the SERIAL sequence.
-/

namespace PG

/-- A caller-supplied turn document (opaque JSON round-tripped by
`json.dumps`/`json.loads`). -/
abbrev Payload := String

/-- One row of `conversation_turns`. -/
structure Row where
  session_id : String
  idx : Nat
  payload : Payload
deriving DecidableEq, Repr

/-- The state of the `conversation_turns` table: its rows plus the
SERIAL sequence backing `idx`. -/
structure DB where
  rows : List Row
  nextIdx : Nat
deriving DecidableEq, Repr

/-- A freshly bootstrapped store: empty table, sequence at 0. -/
def DB.empty : DB := ⟨[], 0⟩

/-- Store invariant maintained by SERIAL assignment: rows appear in
ascending `idx` order (each insert appends with a fresh, strictly larger
`idx`), and every `idx` in the table is below the sequence's next value. -/
def DB.wf (db : DB) : Prop :=
  db.rows.Pairwise (fun a b => a.idx < b.idx) ∧ ∀ r ∈ db.rows, r.idx < db.nextIdx

/-- Evaluation of `WHERE session_id = $1`: the rows of one session, in table order. -/
def sessionRows (db : DB) (sid : String) : List Row :=
  db.rows.filter (fun r => r.session_id == sid)

/-- Evaluation of `ORDER BY idx ASC`. -/
def orderAsc (rs : List Row) : List Row :=
  rs.insertionSort (fun a b => a.idx ≤ b.idx)

/-- Evaluation of `ORDER BY idx DESC`. -/
def orderDesc (rs : List Row) : List Row :=
  rs.insertionSort (fun a b => b.idx ≤ a.idx)

/--
Embedding of `get_items(limit)`:

```
sql = "SELECT payload FROM conversation_turns WHERE session_id = $1
       ORDER BY idx ASC " + ("LIMIT $2" if limit else "")
args = [self.session_id] if limit is None else [self.session_id, limit]
rows = await pool.fetch(sql, *args)
return [json.loads(r["payload"]) for r in rows]
```

`limit` is tested for truthiness, `args` for `is None`.  With
`limit = 0` the SQL has a single placeholder but two arguments are
bound, and the driver rejects the call.  A negative `limit` reaches the
store, which rejects `LIMIT` with a negative argument.
-/
def get_items (sid : String) (limit : Option Int) (db : DB) :
    Except String (List Payload) :=
  match limit with
  | none => .ok ((orderAsc (sessionRows db sid)).map Row.payload)
  | some l =>
      if l = 0 then
        .error "the server expects 1 argument for this query, 2 were passed"
      else if l < 0 then
        .error "LIMIT must not be negative"
      else
        .ok (((orderAsc (sessionRows db sid)).map Row.payload).take l.toNat)

/-- The sequential effect of `executemany` on the `INSERT`: each tuple
inserts one row whose `idx` is the next SERIAL value. -/
def insertItems (sid : String) : List Payload → DB → DB
  | [], db => db
  | p :: ps, db =>
      insertItems sid ps ⟨db.rows ++ [⟨sid, db.nextIdx, p⟩], db.nextIdx + 1⟩

/--
Embedding of `add_items(items)`:

```
if not items:
    return
await pool.executemany("INSERT INTO conversation_turns(session_id, payload)
                        VALUES ($1, $2)", [(self.session_id, json.dumps(item)) …])
```

Returns the new table state together with the number of statements sent
to the store (0 on the empty-list fast path, 1 for the batched insert).
-/
def add_items (sid : String) (items : List Payload) (db : DB) : DB × Nat :=
  if items.isEmpty then (db, 0)
  else (insertItems sid items db, 1)

/--
Embedding of `pop_item()`:

```
DELETE FROM conversation_turns
WHERE ctid = (SELECT ctid FROM conversation_turns
              WHERE session_id = $1 ORDER BY idx DESC LIMIT 1)
RETURNING payload
```

The subquery picks the session's row of maximum `idx` (or nothing);
deleting by its `ctid` removes exactly that row, i.e. the rows matching
its primary key `(session_id, idx)`.
-/
def pop_item (sid : String) (db : DB) : Option Payload × DB :=
  match (orderDesc (sessionRows db sid)).head? with
  | none => (none, db)
  | some r =>
      (some r.payload,
       ⟨db.rows.filter (fun x => !(x.session_id == r.session_id && x.idx == r.idx)),
        db.nextIdx⟩)

/-- Embedding of `clear_session()`: `DELETE FROM conversation_turns WHERE session_id = $1`. -/
def clear_session (sid : String) (db : DB) : DB :=
  ⟨db.rows.filter (fun r => !(r.session_id == sid)), db.nextIdx⟩

/-- Abstract view of a session: its payloads in table (= `idx`) order. -/
def items (sid : String) (db : DB) : List Payload :=
  (sessionRows db sid).map Row.payload

/-- The rows a non-empty batch starting at SERIAL value `n` produces. -/
def mkRows (sid : String) : Nat → List Payload → List Row
  | _, [] => []
  | n, p :: ps => ⟨sid, n, p⟩ :: mkRows sid (n + 1) ps

/-! ### Histories of store operations (for the sequence invariant) -/

/-- One mutating call against the store. -/
inductive Op where
  | add (sid : String) (batch : List Payload)
  | pop (sid : String)
  | clear (sid : String)
deriving DecidableEq, Repr

/-- Effect of one operation on the table. -/
def applyOp (db : DB) : Op → DB
  | .add sid batch => (add_items sid batch db).1
  | .pop sid => (pop_item sid db).2
  | .clear sid => clear_session sid db

/-- Run a history of operations against the table. -/
def runOps (ops : List Op) (db : DB) : DB := ops.foldl applyOp db

/-- The `idx` values the SERIAL sequence assigns while one operation
runs: a non-empty `add` of `k` payloads consumes `nextIdx … nextIdx+k-1`;
nothing else draws from the sequence. -/
def assigned (db : DB) : Op → List Nat
  | .add _ batch =>
      if batch.isEmpty then [] else (List.range batch.length).map (db.nextIdx + ·)
  | .pop _ => []
  | .clear _ => []

/-- All `idx` values assigned over a whole history, in assignment order. -/
def trace : List Op → DB → List Nat
  | [], _ => []
  | op :: ops, db => assigned db op ++ trace ops (applyOp db op)

/-! ### Session handle and pool lifecycle -/

/-- An `asyncpg` pool as the session code observes it.  Per the
driver's contract, `Pool.close()` on an already-closed pool returns
immediately, so closing is modelled as (idempotently) marking the pool
closed. -/
structure Pool where
  closed : Bool
deriving DecidableEq, Repr

/-- Embedding of `await self._pool.close()`. -/
def Pool.close (p : Pool) : Pool := { p with closed := true }

/-- The in-memory `PostgreSQLSession` handle: `session_id`, `dsn`, and
the lazily created cached pool `self._pool` (`None` until first use). -/
structure PGSession where
  session_id : String
  dsn : String
  pool : Option Pool
deriving DecidableEq, Repr

/-- Embedding of `__init__`: stores the ids and leaves `self._pool = None`. -/
def PGSession.init (sid dsn : String) : PGSession := ⟨sid, dsn, none⟩

/-- Embedding of `close()`: `if self._pool: await self._pool.close()` — a `Pool`
object is truthy, `None` is falsy, and `self._pool` is left assigned. -/
def PGSession.close (s : PGSession) : PGSession :=
  match s.pool with
  | none => s
  | some p => { s with pool := some p.close }

/-! ### Lazy pool creation under two concurrent first callers

`_pool_acquire` is

```
if self._pool is None:
    self._pool = await asyncpg.create_pool(self.dsn, min_size=1, max_size=10)
return self._pool
```

Under the event loop, a task runs atomically between `await`s, so one
call decomposes into two atomic segments: (1) evaluate
`self._pool is None` and, if it is, suspend in `create_pool`;
(2) resume with the freshly created pool and assign it to `self._pool`.
The model runs two such tasks over one shared handle under an explicit
schedule and counts the pools `create_pool` built. -/

/-- Where one task is inside `_pool_acquire`. -/
inductive Phase where
  | ready          -- about to evaluate the None check
  | awaitingCreate -- saw None, suspended inside create_pool
  | finished       -- returned from the coroutine
deriving DecidableEq, Repr

/-- Shared handle state plus both tasks, for a fresh session: `pool` is
`self._pool` (pools numbered by creation), `created` counts calls of
`create_pool` that completed. -/
structure RaceState where
  pool : Option Nat
  created : Nat
  t1 : Phase
  t2 : Phase
deriving DecidableEq, Repr

/-- One atomic segment of one task. -/
def stepTask : Phase → Option Nat → Nat → Phase × Option Nat × Nat
  | .ready, none, created => (.awaitingCreate, none, created)
  | .ready, some p, created => (.finished, some p, created)
  | .awaitingCreate, _, created => (.finished, some (created + 1), created + 1)
  | .finished, pool, created => (.finished, pool, created)

/-- Run one atomic segment of the scheduled task (`false` = task 1). -/
def stepRace (s : RaceState) (t : Bool) : RaceState :=
  if t then
    let (ph, pool, created) := stepTask s.t2 s.pool s.created
    ⟨pool, created, s.t1, ph⟩
  else
    let (ph, pool, created) := stepTask s.t1 s.pool s.created
    ⟨pool, created, ph, s.t2⟩

/-- Run a schedule of atomic segments. -/
def runRace (sched : List Bool) (s : RaceState) : RaceState :=
  sched.foldl stepRace s

/-- Both tasks about to make the first call on a fresh session. -/
def initRace : RaceState := ⟨none, 0, .ready, .ready⟩

/-! ## Lemmas about batch insertion -/

/-- Row-level order over which the store invariant is stated. -/
def rlt (a b : Row) : Prop := a.idx < b.idx

theorem insertItems_eq (sid : String) (its : List Payload) (db : DB) :
    insertItems sid its db =
      ⟨db.rows ++ mkRows sid db.nextIdx its, db.nextIdx + its.length⟩ := by
  induction its generalizing db with
  | nil => simp [insertItems, mkRows]
  | cons p ps ih =>
      simp only [insertItems, mkRows, ih]
      simp only [DB.mk.injEq, List.append_assoc, List.singleton_append, List.length_cons]
      exact ⟨trivial, by omega⟩

theorem mem_mkRows {sid : String} {n : Nat} {its : List Payload} {r : Row}
    (h : r ∈ mkRows sid n its) :
    r.session_id = sid ∧ n ≤ r.idx ∧ r.idx < n + its.length := by
  induction its generalizing n with
  | nil => simp [mkRows] at h
  | cons p ps ih =>
      simp only [mkRows, List.mem_cons] at h
      rcases h with h | h
      · subst h; refine ⟨rfl, le_refl _, by simp⟩
      · obtain ⟨h1, h2, h3⟩ := ih h
        exact ⟨h1, by omega, by simp; omega⟩

theorem mkRows_pairwise (sid : String) (n : Nat) (its : List Payload) :
    (mkRows sid n its).Pairwise rlt := by
  induction its generalizing n with
  | nil => exact List.Pairwise.nil
  | cons p ps ih =>
      refine List.Pairwise.cons ?_ (ih (n + 1))
      intro b hb
      have := (mem_mkRows hb).2.1
      simpa [rlt] using this

theorem mkRows_map_payload (sid : String) (n : Nat) (its : List Payload) :
    (mkRows sid n its).map Row.payload = its := by
  induction its generalizing n with
  | nil => rfl
  | cons p ps ih => simp [mkRows, ih]

theorem mkRows_filter_self (sid : String) (n : Nat) (its : List Payload) :
    (mkRows sid n its).filter (fun r => r.session_id == sid) = mkRows sid n its := by
  induction its generalizing n with
  | nil => rfl
  | cons p ps ih => simp [mkRows, List.filter, ih]

theorem mkRows_filter_other {sid sid' : String} (h : sid ≠ sid') (n : Nat)
    (its : List Payload) :
    (mkRows sid n its).filter (fun r => r.session_id == sid') = [] := by
  induction its generalizing n with
  | nil => rfl
  | cons p ps ih => simp [mkRows, List.filter_cons, beq_iff_eq, h, ih]

/-! ## Lemmas about the SQL order-by -/

theorem orderAsc_of_pairwise {l : List Row} (h : l.Pairwise rlt) :
    orderAsc l = l := by
  apply List.Sorted.insertionSort_eq
  exact h.imp (fun hab => le_of_lt hab)

theorem orderedInsert_of_forall_not {r : Row → Row → Prop} [DecidableRel r]
    {a : Row} {l : List Row} (h : ∀ b ∈ l, ¬ r a b) :
    l.orderedInsert r a = l ++ [a] := by
  induction l with
  | nil => rfl
  | cons b t ih =>
      have hb : ¬ r a b := h b (List.mem_cons_self b t)
      simp only [List.orderedInsert, if_neg hb]
      rw [ih (fun c hc => h c (List.mem_cons_of_mem _ hc))]
      rfl

theorem orderDesc_of_pairwise {l : List Row} (h : l.Pairwise rlt) :
    orderDesc l = l.reverse := by
  induction l with
  | nil => rfl
  | cons a t ih =>
      have ht : t.Pairwise rlt := h.tail
      have ha : ∀ b ∈ t, a.idx < b.idx := by
        intro b hb; exact List.rel_of_pairwise_cons h hb
      show (orderDesc t).orderedInsert _ a = (a :: t).reverse
      rw [ih ht, List.reverse_cons]
      apply orderedInsert_of_forall_not
      intro b hb
      have hb' : b ∈ t := List.mem_reverse.mp hb
      have := ha b hb'
      omega

/-! ## The store invariant is preserved by every operation -/

theorem wf_empty : DB.empty.wf := ⟨List.Pairwise.nil, by simp [DB.empty]⟩

theorem wf_insertItems {db : DB} (hwf : db.wf) (sid : String) (its : List Payload) :
    (insertItems sid its db).wf := by
  rw [insertItems_eq]
  obtain ⟨hpw, hlt⟩ := hwf
  constructor
  · rw [List.pairwise_append]
    refine ⟨hpw, mkRows_pairwise sid db.nextIdx its, ?_⟩
    intro a ha b hb
    have h1 := hlt a ha
    have h2 := (mem_mkRows hb).2.1
    omega
  · intro r hr
    rcases List.mem_append.mp hr with h | h
    · have := hlt r h
      simp only []
      omega
    · have := (mem_mkRows h).2.2
      simp only []
      omega

theorem wf_add_items {db : DB} (hwf : db.wf) (sid : String) (its : List Payload) :
    (add_items sid its db).1.wf := by
  unfold add_items
  by_cases h : its.isEmpty <;> simp [h, hwf, wf_insertItems hwf sid its]

theorem wf_of_filter {db : DB} (hwf : db.wf) (p : Row → Bool) :
    (DB.mk (db.rows.filter p) db.nextIdx).wf := by
  obtain ⟨hpw, hlt⟩ := hwf
  exact ⟨hpw.filter p, fun r hr => hlt r (List.mem_of_mem_filter hr)⟩

theorem wf_pop_item {db : DB} (hwf : db.wf) (sid : String) :
    (pop_item sid db).2.wf := by
  unfold pop_item
  cases h : (orderDesc (sessionRows db sid)).head? with
  | none => exact hwf
  | some r => exact wf_of_filter hwf _

theorem wf_clear_session {db : DB} (hwf : db.wf) (sid : String) :
    (clear_session sid db).wf := wf_of_filter hwf _

/-! ## The session view `sessionRows` through each operation -/

theorem sessionRows_pairwise {db : DB} (hwf : db.wf) (sid : String) :
    (sessionRows db sid).Pairwise rlt := hwf.1.filter _

theorem mem_sessionRows {db : DB} {sid : String} {r : Row} :
    r ∈ sessionRows db sid ↔ r ∈ db.rows ∧ r.session_id = sid := by
  simp [sessionRows, List.mem_filter]

theorem get_items_none {db : DB} (hwf : db.wf) (sid : String) :
    get_items sid none db = .ok (items sid db) := by
  simp [get_items, items, orderAsc_of_pairwise (sessionRows_pairwise hwf sid)]

theorem get_items_pos {db : DB} (hwf : db.wf) (sid : String) {l : Int} (hl : 0 < l) :
    get_items sid (some l) db = .ok ((items sid db).take l.toNat) := by
  have h0 : l ≠ 0 := by omega
  have h1 : ¬ l < 0 := by omega
  simp [get_items, h0, h1, items,
    orderAsc_of_pairwise (sessionRows_pairwise hwf sid)]

theorem sessionRows_insertItems_self (sid : String) (its : List Payload) (db : DB) :
    sessionRows (insertItems sid its db) sid =
      sessionRows db sid ++ mkRows sid db.nextIdx its := by
  rw [insertItems_eq]
  simp only [sessionRows, List.filter_append, mkRows_filter_self]

theorem sessionRows_insertItems_other {sid sid' : String} (h : sid ≠ sid')
    (its : List Payload) (db : DB) :
    sessionRows (insertItems sid its db) sid' = sessionRows db sid' := by
  rw [insertItems_eq]
  simp only [sessionRows, List.filter_append, mkRows_filter_other h, List.append_nil]

theorem items_add_self (sid : String) (its : List Payload) (db : DB) :
    items sid ((add_items sid its db).1) = items sid db ++ its := by
  unfold add_items
  by_cases h : its.isEmpty
  · have : its = [] := List.isEmpty_iff.mp h
    subst this; simp [items]
  · simp only [h, if_neg, Bool.false_eq_true, not_false_eq_true]
    rw [items, sessionRows_insertItems_self, List.map_append, mkRows_map_payload]
    rfl

theorem sessionRows_add_other {sid sid' : String} (h : sid ≠ sid')
    (its : List Payload) (db : DB) :
    sessionRows ((add_items sid its db).1) sid' = sessionRows db sid' := by
  unfold add_items
  by_cases he : its.isEmpty
  · simp [he]
  · simp only [he, Bool.false_eq_true, if_neg, not_false_eq_true]
    exact sessionRows_insertItems_other h its db

theorem sessionRows_clear_self (sid : String) (db : DB) :
    sessionRows (clear_session sid db) sid = [] := by
  unfold clear_session sessionRows
  simp only [List.filter_filter]
  have : ∀ r : Row, ((r.session_id == sid) && !(r.session_id == sid)) = false := by
    intro r; cases r.session_id == sid <;> rfl
  simp [this]

theorem sessionRows_clear_other {sid sid' : String} (h : sid ≠ sid') (db : DB) :
    sessionRows (clear_session sid db) sid' = sessionRows db sid' := by
  unfold clear_session sessionRows
  simp only [List.filter_filter]
  apply List.filter_congr
  intro r _
  cases hb : r.session_id == sid' with
  | false => simp
  | true =>
      have : r.session_id = sid' := beq_iff_eq.mp hb
      simp [this, beq_iff_eq, Ne.symm h]

/-! ## Lemmas about `pop_item` -/

theorem filter_comm (p q : Row → Bool) (l : List Row) :
    (l.filter q).filter p = (l.filter p).filter q := by
  rw [List.filter_filter, List.filter_filter]
  exact List.filter_congr (fun a _ => Bool.and_comm (p a) (q a))

theorem pop_head {db : DB} (hwf : db.wf) (sid : String) :
    (orderDesc (sessionRows db sid)).head? = (sessionRows db sid).getLast? := by
  rw [orderDesc_of_pairwise (sessionRows_pairwise hwf sid), List.head?_reverse]

/-- In an ascending-`idx` list, removing the rows of the last element's
`idx` removes exactly the last element. -/
theorem filter_idx_ne_getLast :
    ∀ {l : List Row}, l.Pairwise rlt → ∀ {r : Row}, l.getLast? = some r →
      l.filter (fun x => !(x.idx == r.idx)) = l.dropLast
  | [], _, _, h => by simp at h
  | [a], _, r, h => by
      have : a = r := by simpa using h
      subst this
      simp
  | a :: b :: t, hpw, r, h => by
      rw [List.getLast?_cons_cons] at h
      have hr : r ∈ b :: t := List.mem_of_mem_getLast? h
      have hlt : a.idx < r.idx := List.rel_of_pairwise_cons hpw hr
      have hne : (a.idx == r.idx) = false := by
        simp only [beq_eq_false_iff_ne]; omega
      rw [List.filter_cons]
      simp only [hne, Bool.not_false, if_pos]
      rw [filter_idx_ne_getLast (List.pairwise_cons.mp hpw).2 h]
      rfl

theorem pop_item_of_empty {db : DB} {sid : String}
    (h : sessionRows db sid = []) : pop_item sid db = (none, db) := by
  unfold pop_item
  rw [h]
  rfl

theorem pop_item_fst {db : DB} (hwf : db.wf) (sid : String) :
    (pop_item sid db).1 = (items sid db).getLast? := by
  unfold pop_item
  rw [pop_head hwf sid, items, List.getLast?_map]
  cases hg : (sessionRows db sid).getLast? <;> rfl

theorem sessionRows_pop_self {db : DB} (hwf : db.wf) (sid : String) :
    sessionRows ((pop_item sid db).2) sid = (sessionRows db sid).dropLast := by
  unfold pop_item
  rw [pop_head hwf sid]
  cases hg : (sessionRows db sid).getLast? with
  | none =>
      have : sessionRows db sid = [] := List.getLast?_eq_none_iff.mp hg
      simp [this]
  | some r =>
      have hr : r ∈ sessionRows db sid := List.mem_of_mem_getLast? hg
      have hrs : r.session_id = sid := (mem_sessionRows.mp hr).2
      show sessionRows (DB.mk _ _) sid = _
      rw [sessionRows, show (DB.mk
        (db.rows.filter (fun x => !(x.session_id == r.session_id && x.idx == r.idx)))
        db.nextIdx).rows = db.rows.filter
          (fun x => !(x.session_id == r.session_id && x.idx == r.idx)) from rfl,
        filter_comm, ← sessionRows]
      have hcongr : ∀ x ∈ sessionRows db sid,
          (!(x.session_id == r.session_id && x.idx == r.idx)) = !(x.idx == r.idx) := by
        intro x hx
        have hxs : x.session_id = sid := (mem_sessionRows.mp hx).2
        simp [hxs, hrs]
      rw [List.filter_congr hcongr]
      exact filter_idx_ne_getLast (sessionRows_pairwise hwf sid) hg

theorem items_pop_self {db : DB} (hwf : db.wf) (sid : String) :
    items sid ((pop_item sid db).2) = (items sid db).dropLast := by
  rw [items, sessionRows_pop_self hwf sid, List.map_dropLast, ← items]

theorem sessionRows_pop_other {A B : String} (h : A ≠ B) (db : DB) :
    sessionRows ((pop_item A db).2) B = sessionRows db B := by
  unfold pop_item
  cases hh : (orderDesc (sessionRows db A)).head? with
  | none => rfl
  | some r =>
      have hr : r ∈ orderDesc (sessionRows db A) := List.mem_of_mem_head? hh
      have hr' : r ∈ sessionRows db A :=
        ((List.perm_insertionSort _ _).mem_iff).mp hr
      have hrs : r.session_id = A := (mem_sessionRows.mp hr').2
      show sessionRows (DB.mk _ _) B = _
      rw [sessionRows, show (DB.mk
        (db.rows.filter (fun x => !(x.session_id == r.session_id && x.idx == r.idx)))
        db.nextIdx).rows = db.rows.filter
          (fun x => !(x.session_id == r.session_id && x.idx == r.idx)) from rfl,
        filter_comm, ← sessionRows]
      have hall : ∀ x ∈ sessionRows db B,
          (!(x.session_id == r.session_id && x.idx == r.idx)) = true := by
        intro x hx
        have hxs : x.session_id = B := (mem_sessionRows.mp hx).2
        simp [hxs, hrs, Ne.symm h]
      rw [List.filter_congr hall, List.filter_true]

/-! ## Lemmas about the SERIAL trace of a history -/

theorem applyOp_nextIdx_mono (db : DB) (op : Op) :
    db.nextIdx ≤ (applyOp db op).nextIdx := by
  cases op with
  | add sid batch =>
      unfold applyOp add_items
      by_cases h : batch.isEmpty
      · simp [h]
      · simp [h, insertItems_eq]
  | pop sid =>
      unfold applyOp pop_item
      cases h : (orderDesc (sessionRows db sid)).head? <;> simp [h]
  | clear sid => exact le_refl _

theorem mem_assigned_lb {db : DB} {op : Op} :
    ∀ x ∈ assigned db op, db.nextIdx ≤ x := by
  cases op with
  | add sid batch =>
      intro x hx
      unfold assigned at hx
      by_cases h : batch.isEmpty
      · simp [h] at hx
      · simp only [h, if_neg, Bool.false_eq_true, not_false_eq_true,
          List.mem_map, List.mem_range] at hx
        obtain ⟨i, _, rfl⟩ := hx
        omega
  | pop sid => intro x hx; simp [assigned] at hx
  | clear sid => intro x hx; simp [assigned] at hx

theorem mem_assigned_ub {db : DB} {op : Op} :
    ∀ x ∈ assigned db op, x < (applyOp db op).nextIdx := by
  cases op with
  | add sid batch =>
      intro x hx
      unfold assigned at hx
      by_cases h : batch.isEmpty
      · simp [h] at hx
      · simp only [h, if_neg, Bool.false_eq_true, not_false_eq_true,
          List.mem_map, List.mem_range] at hx
        obtain ⟨i, hi, rfl⟩ := hx
        unfold applyOp add_items
        simp [h, insertItems_eq, hi]
  | pop sid => intro x hx; simp [assigned] at hx
  | clear sid => intro x hx; simp [assigned] at hx

theorem assigned_pairwise (db : DB) (op : Op) :
    (assigned db op).Pairwise (· < ·) := by
  cases op with
  | add sid batch =>
      unfold assigned
      by_cases h : batch.isEmpty
      · simp [h]
      · simp only [h, if_neg, Bool.false_eq_true, not_false_eq_true]
        exact (List.pairwise_lt_range batch.length).map _ (fun hab => by omega)
  | pop sid => exact List.Pairwise.nil
  | clear sid => exact List.Pairwise.nil

theorem mem_trace_lb :
    ∀ {ops : List Op} {db : DB} {x : Nat}, x ∈ trace ops db → db.nextIdx ≤ x := by
  intro ops
  induction ops with
  | nil => intro db x hx; simp [trace] at hx
  | cons op ops ih =>
      intro db x hx
      rcases List.mem_append.mp hx with h | h
      · exact mem_assigned_lb x h
      · exact le_trans (applyOp_nextIdx_mono db op) (ih h)

theorem trace_pairwise (ops : List Op) (db : DB) :
    (trace ops db).Pairwise (· < ·) := by
  induction ops generalizing db with
  | nil => exact List.Pairwise.nil
  | cons op ops ih =>
      show ((assigned db op) ++ trace ops (applyOp db op)).Pairwise (· < ·)
      rw [List.pairwise_append]
      refine ⟨assigned_pairwise db op, ih (applyOp db op), ?_⟩
      intro a ha b hb
      have h1 := mem_assigned_ub a ha
      have h2 := mem_trace_lb hb
      omega

theorem mem_rows_applyOp {db : DB} {op : Op} {r : Row}
    (h : r ∈ (applyOp db op).rows) :
    r ∈ db.rows ∨ r.idx ∈ assigned db op := by
  cases op with
  | add sid batch =>
      unfold applyOp add_items at h
      by_cases he : batch.isEmpty
      · simp only [he, if_pos] at h
        exact Or.inl h
      · simp only [he, Bool.false_eq_true, if_neg, not_false_eq_true,
          insertItems_eq] at h
        rcases List.mem_append.mp h with h | h
        · exact Or.inl h
        · right
          obtain ⟨_, hlb, hub⟩ := mem_mkRows h
          unfold assigned
          simp only [he, Bool.false_eq_true, if_neg, not_false_eq_true,
            List.mem_map, List.mem_range]
          exact ⟨r.idx - db.nextIdx, by omega, by omega⟩
  | pop sid =>
      simp only [applyOp, pop_item] at h
      cases hh : (orderDesc (sessionRows db sid)).head? with
      | none => rw [hh] at h; exact Or.inl h
      | some q => rw [hh] at h; exact Or.inl (List.mem_of_mem_filter h)
  | clear sid =>
      exact Or.inl (List.mem_of_mem_filter h)

theorem mem_rows_runOps :
    ∀ {ops : List Op} {db : DB} {r : Row}, r ∈ (runOps ops db).rows →
      r ∈ db.rows ∨ r.idx ∈ trace ops db := by
  intro ops
  induction ops with
  | nil => intro db r h; exact Or.inl h
  | cons op ops ih =>
      intro db r h
      have h' : r ∈ (runOps ops (applyOp db op)).rows := h
      rcases ih h' with h1 | h1
      · rcases mem_rows_applyOp h1 with h2 | h2
        · exact Or.inl h2
        · exact Or.inr (List.mem_append.mpr (Or.inl h2))
      · exact Or.inr (List.mem_append.mpr (Or.inr h1))

theorem items_foldl_add (sid : String) (batches : List (List Payload)) (db : DB) :
    items sid (batches.foldl (fun d b => (add_items sid b d).1) db)
      = items sid db ++ batches.flatten := by
  induction batches generalizing db with
  | nil => simp [trace]
  | cons b bs ih =>
      rw [List.foldl_cons, ih, items_add_self, List.flatten_cons, List.append_assoc]

theorem wf_foldl_add {db : DB} (hwf : db.wf) (sid : String)
    (batches : List (List Payload)) :
    (batches.foldl (fun d b => (add_items sid b d).1) db).wf := by
  induction batches generalizing db with
  | nil => exact hwf
  | cons b bs ih => exact ih (wf_add_items hwf sid b)

/-- Every payload an `ok` result of `get_items` returns is the payload of
a row of the queried session. -/
theorem get_items_sound {db : DB} {sid : String} {limit : Option Int}
    {ps : List Payload} (hok : get_items sid limit db = .ok ps) :
    ∀ p ∈ ps, ∃ r ∈ sessionRows db sid, r.payload = p := by
  have key : ∀ q ∈ (orderAsc (sessionRows db sid)).map Row.payload,
      ∃ r ∈ sessionRows db sid, r.payload = q := by
    intro q hq
    obtain ⟨r, hr, rfl⟩ := List.mem_map.mp hq
    exact ⟨r, ((List.perm_insertionSort _ _).mem_iff).mp hr, rfl⟩
  intro p hp
  cases limit with
  | none =>
      simp only [get_items, Except.ok.injEq] at hok
      exact key p (hok ▸ hp)
  | some l =>
      by_cases h0 : l = 0
      · simp [get_items, h0] at hok
      · by_cases hneg : l < 0
        · simp [get_items, h0, hneg] at hok
        · simp only [get_items, h0, hneg, if_neg, if_false, Except.ok.injEq] at hok
          exact key p (List.mem_of_mem_take (hok ▸ hp))

/-! ## The claims -/

/-- C1: For every sequence of `add_items` calls on a fresh session
(each with a non-empty payload batch), `get_items` with no limit then
returns exactly the concatenation of all inserted payloads in insertion
order, within and across batches. -/
theorem get_items_after_add_batches (sid : String) (batches : List (List Payload))
    (db : DB) (hwf : db.wf) (hfresh : sessionRows db sid = [])
    (hne : ∀ b ∈ batches, b ≠ []) :
    get_items sid none (batches.foldl (fun d b => (add_items sid b d).1) db)
      = .ok batches.flatten := by
  rw [get_items_none (wf_foldl_add hwf sid batches) sid, items_foldl_add]
  simp [items, hfresh]

/-- Witness for C1: two batches on a fresh store. -/
theorem get_items_after_add_batches_witness :
    get_items "s" none
        ([["a"], ["b", "c"]].foldl (fun d b => (add_items "s" b d).1) DB.empty)
      = .ok ["a", "b", "c"] :=
  get_items_after_add_batches "s" [["a"], ["b", "c"]] DB.empty wf_empty rfl
    (by decide)

/-- C2 counterexample: With a duplicated payload the popped payload
still occurs in the remaining history: after `add_items ["a", "a"]`,
`pop_item` returns `"a"` yet `get_items` still contains `"a"`, refuting
"no longer contains the popped payload". -/
theorem pop_item_duplicate_payload_counterexample :
    (pop_item "s" ((add_items "s" ["a", "a"] DB.empty).1)).1 = some "a" ∧
    "a" ∈ items "s" ((pop_item "s" ((add_items "s" ["a", "a"] DB.empty).1)).2) :=
  ⟨rfl, by decide⟩

/-- C2 amended: `pop_item` on an empty session returns nothing and
leaves the store unchanged; on a non-empty session it returns the payload
of the maximum-`sequence` row (the last element of the history) and the
session's history afterwards is the previous history with its last
element removed — one fewer item, and one fewer occurrence of the popped
payload. -/
theorem pop_item_lifo (sid : String) (db : DB) (hwf : db.wf) :
    (items sid db = [] → pop_item sid db = (none, db)) ∧
    (pop_item sid db).1 = (items sid db).getLast? ∧
    items sid ((pop_item sid db).2) = (items sid db).dropLast := by
  refine ⟨?_, pop_item_fst hwf sid, items_pop_self hwf sid⟩
  intro h
  exact pop_item_of_empty (List.map_eq_nil_iff.mp h)

/-- Witness for C2: popping from a two-element session returns the last
payload. -/
theorem pop_item_lifo_witness :
    (pop_item "s" ((add_items "s" ["a", "b"] DB.empty).1)).1 = some "b" :=
  (pop_item_lifo "s" ((add_items "s" ["a", "b"] DB.empty).1)
    (wf_add_items wf_empty "s" ["a", "b"])).2.1

/-- C3: With a positive `limit`, `get_items` returns the first
`limit` payloads in ascending `sequence` order (the oldest turns); on a
session with no rows it returns an empty sequence, not an error. -/
theorem get_items_limit_takes_oldest (sid : String) (db : DB) (hwf : db.wf) :
    (∀ l : Int, 0 < l →
        get_items sid (some l) db = .ok ((items sid db).take l.toNat)) ∧
    (sessionRows db sid = [] →
        get_items sid none db = .ok [] ∧
        ∀ l : Int, 0 < l → get_items sid (some l) db = .ok []) := by
  constructor
  · intro l hl; exact get_items_pos hwf sid hl
  · intro h
    have hi : items sid db = [] := by simp [items, h]
    refine ⟨by rw [get_items_none hwf sid, hi], fun l hl => ?_⟩
    rw [get_items_pos hwf sid hl, hi, List.take_nil]

/-- Witness for C3: limit 2 on a three-element session returns the two
oldest payloads. -/
theorem get_items_limit_takes_oldest_witness :
    get_items "s" (some 2) ((add_items "s" ["a", "b", "c"] DB.empty).1)
      = .ok ["a", "b"] :=
  (get_items_limit_takes_oldest "s" ((add_items "s" ["a", "b", "c"] DB.empty).1)
    (wf_add_items wf_empty "s" ["a", "b", "c"])).1 2 (by decide)

/-- C4: Distinct sessions do not interfere: writes through session
`A` (`add_items`, `pop_item`, `clear_session`) leave the rows of any
other session `B` unchanged, and every payload `get_items` on `A`
returns comes from a row of session `A`. -/
theorem session_isolation (A B : String) (h : A ≠ B) (db : DB)
    (its : List Payload) :
    sessionRows ((add_items A its db).1) B = sessionRows db B ∧
    sessionRows ((pop_item A db).2) B = sessionRows db B ∧
    sessionRows (clear_session A db) B = sessionRows db B ∧
    ∀ limit ps, get_items A limit db = .ok ps →
      ∀ p ∈ ps, ∃ r ∈ sessionRows db A, r.payload = p :=
  ⟨sessionRows_add_other h its db, sessionRows_pop_other h db,
   sessionRows_clear_other h db, fun _ _ hok => get_items_sound hok⟩

/-- Witness for C4: a write to session `a` leaves session `b`'s rows
unchanged. -/
theorem session_isolation_witness :
    sessionRows ((add_items "a" ["p"] ((add_items "b" ["q"] DB.empty).1)).1) "b"
      = sessionRows ((add_items "b" ["q"] DB.empty).1) "b" :=
  (session_isolation "a" "b" (by decide) ((add_items "b" ["q"] DB.empty).1)
    ["p"]).1

/-- C5: Over every history of `add_items`, `pop_item` and
`clear_session`, the SERIAL-assigned `sequence` values are strictly
increasing in assignment order (hence strictly increasing within each
session, and no value is ever reused, even after rows are deleted), and
every row surviving a history started from the empty store carries a
value assigned during that history. -/
theorem serial_trace_strictly_increasing (ops : List Op) (db : DB) :
    (trace ops db).Pairwise (· < ·) ∧
    ∀ r ∈ (runOps ops DB.empty).rows, r.idx ∈ trace ops DB.empty := by
  refine ⟨trace_pairwise ops db, fun r hr => ?_⟩
  rcases mem_rows_runOps hr with h | h
  · simp [DB.empty] at h
  · exact h

/-- C6: `add_items` with an empty list is a complete no-op: it sends
no statement to the store and leaves the table — every session — exactly
as it was. -/
theorem add_items_empty_noop (sid : String) (db : DB) :
    add_items sid [] db = (db, 0) := rfl

/-- C7: `clear_session` empties its session regardless of prior
content (`get_items` afterwards returns `[]`), and it is idempotent: a
second consecutive call leaves the store exactly as the first left it. -/
theorem clear_session_clears_and_idempotent (sid : String) (db : DB) :
    get_items sid none (clear_session sid db) = .ok [] ∧
    clear_session sid (clear_session sid db) = clear_session sid db := by
  constructor
  · show Except.ok ((orderAsc (sessionRows (clear_session sid db) sid)).map
      Row.payload) = .ok []
    rw [sessionRows_clear_self]
    rfl
  · show DB.mk ((db.rows.filter _).filter _) db.nextIdx = DB.mk (db.rows.filter _) db.nextIdx
    rw [List.filter_filter]
    exact congrArg (fun l => DB.mk l db.nextIdx)
      (List.filter_congr (fun a _ => Bool.and_self _))

/-- C8: `close` is idempotent and safe in every pool state: on a
handle whose pool was never created it is a no-op, and a repeated
`close` leaves the handle exactly as the first `close` left it (the
driver's pool close returns immediately on a closed pool, so no call
errors). -/
theorem close_idempotent (sid dsn : String) (s : PGSession) :
    PGSession.close (PGSession.init sid dsn) = PGSession.init sid dsn ∧
    PGSession.close (PGSession.close s) = PGSession.close s := by
  refine ⟨rfl, ?_⟩
  cases s with
  | mk sid' dsn' pool =>
      cases pool with
      | none => rfl
      | some p => rfl

/-- C9: The naive lazy pool creation of `_pool_acquire` is not
race-free: under the schedule where both first callers run their
`self._pool is None` check before either resumes from `create_pool`,
both calls complete and two pools are created (the first leaks), whereas
a sequential schedule creates one. -/
theorem race_two_pools_created :
    (runRace [false, true, false, true] initRace).created = 2 ∧
    (runRace [false, true, false, true] initRace).t1 = Phase.finished ∧
    (runRace [false, true, false, true] initRace).t2 = Phase.finished ∧
    (runRace [false, false, true] initRace).created = 1 :=
  ⟨rfl, rfl, rfl, rfl⟩

/-- C10: `get_items` with `limit = 0` builds the SQL without a
`LIMIT` clause (truthiness test) yet binds two parameters against its
single placeholder, so the call errors instead of returning any
sequence. -/
theorem get_items_zero_limit_errors (sid : String) (db : DB) :
    get_items sid (some 0) db
      = .error "the server expects 1 argument for this query, 2 were passed" ∧
    ∀ ps, get_items sid (some 0) db ≠ .ok ps := by
  refine ⟨rfl, fun ps h => ?_⟩
  simp [get_items] at h

end PG
